import Mathlib

/-!
# Verification of the `awot` web-of-trust key ring

Shallow embedding of the key-ring core (`keyring.go`) of the Peerster
repository, together with proofs about its specification claims.

Modelling conventions:
* Go `float32`/`float64` values (probabilities, confidences, thresholds)
  are modelled as exact rationals `ℚ`; the claims under study are
  structural and do not depend on floating-point rounding.
* A gonum graph node is identified by its name.  In the source every node
  carries an `int64` handle and the ring keeps a `name → node` map `ids`;
  the two are kept in bijection by the code, so the embedding keys the
  graph by name directly and keeps the `ids` key set as the list `nodes`
  (in insertion order).
* `rsa.PublicKey` is modelled as a pair of naturals `(N, E)`.  The source
  tallies keys by the string `key.N.String() + "-" + string(key.E)`, which
  is injective on distinct RSA keys (the embedding tallies by the pair
  itself).
* Go map iteration order is nondeterministic; wherever the source
  iterates over a map in a way that can influence the result
  (`selectBestPaths`' occurrence tally), the embedding takes the
  iteration order as an explicit parameter.
* The `keyTable` implementation, `probabilityOfMinPaths` and the crypto
  helpers (`DeserializeKey`, `Verify`) are not part of the provided
  sources; they are modelled from the specification (see the doc comments
  starting with `Modelled from the spec:`).
-/

set_option autoImplicit false

namespace Awot

/-- An RSA public key, `rsa.PublicKey`: modulus `N` and exponent `E`. -/
structure PublicKey where
  N : Nat
  E : Nat
deriving DecidableEq, Repr

/-- The zero value `rsa.PublicKey{}` returned by `GetKey` in the absent case. -/
def zeroKey : PublicKey := ⟨0, 0⟩

/-- A `KeyRecord` is an (owner, public key) binding. -/
structure KeyRecord where
  Owner : String
  KeyPub : PublicKey
deriving DecidableEq, Repr

/-- A `TrustedKeyRecord` is a `KeyRecord` together with a confidence level
(the Go struct embeds `KeyRecord`; it is flattened here). -/
structure TrustedKeyRecord where
  Owner : String
  KeyPub : PublicKey
  Confidence : ℚ
deriving DecidableEq, Repr

/-- Modelled from the spec: the attestation wire message carries
`{signer (Origin), owner, ownerKeyBytes, signature}`; the signature bytes
never influence the control flow of the embedded code other than through
`Verify`, which is abstracted in `Crypto`. -/
structure KeyExchangeMessage where
  KeyBytes : List Nat
  Owner : String
  Origin : String
deriving DecidableEq, Repr

/-- Modelled from the spec: the crypto collaborator interface.
`DeserializeKey(bytes) → (key, error)` is modelled as an `Option`
(`none` = error), `Verify(message, signerPublicKey) → ok|error` as a
`Bool` (`true` = no error). -/
structure Crypto where
  DeserializeKey : List Nat → Option PublicKey
  Verify : KeyExchangeMessage → PublicKey → Bool

/-- A reputation oracle (`ReputationTable`): `Reputation(name)` returns a
value and a presence flag, modelled as `Option ℚ`.  The whole oracle is
optional (`none` models the `nil` interface passed by `Start`). -/
def RepTable : Type := String → Option ℚ

/-- A `KeyRing`: the directed trust graph (node list in insertion order,
node probabilities, edges carrying the asserted key), the key table, the
pending queue, the confidence threshold and the stopped flag.
The key table (`map[string]TrustedKeyRecord`) is modelled from the spec
as a partial function from names to records. -/
structure KeyRing where
  source : String
  nodes : List String
  prob : String → ℚ
  edges : String → String → Option PublicKey
  table : String → Option TrustedKeyRecord
  pending : List KeyExchangeMessage
  threshold : ℚ
  stopped : Bool

/-- Go `contains` checks if a node with given name exists in the key ring. -/
def KeyRing.contains (ring : KeyRing) (name : String) : Bool :=
  ring.nodes.contains name

/-- Go `addNode` adds a vertex with given name and probability, or updates the
probability if the node exists.  (The `int64` handle allocated via
`lastNode + 1` in the source is elided: the embedding keys nodes by name.) -/
def KeyRing.addNode (ring : KeyRing) (name : String) (probability : ℚ) : KeyRing :=
  if ring.nodes.contains name then
    { ring with prob := fun m => if m = name then probability else ring.prob m }
  else
    { ring with
        nodes := ring.nodes ++ [name]
        prob := fun m => if m = name then probability else ring.prob m }

/-- Go `addEdge` adds a directed edge `a → b` carrying the signed key; it
errors (`none`) if either endpoint is missing or `a = b`. -/
def KeyRing.addEdge (ring : KeyRing) (a b : String) (key : PublicKey) :
    Option KeyRing :=
  if ¬ ring.nodes.contains a then none
  else if ¬ ring.nodes.contains b then none
  else if a = b then none
  else some { ring with
      edges := fun x y =>
        if x = a ∧ y = b then some key else ring.edges x y }

/-- One bootstrap installation step of `NewKeyRing`: a node with
probability 1.0, a root edge carrying the record's key, and the record in
the key table with its declared confidence.  (Bootstrap owners are assumed
distinct from the root and from each other; with a duplicate the source
would install a second graph node for the same name, or panic on a
self-edge in gonum's `SetEdge`.) -/
def bootstrapStep (owner : String) (r : KeyRing) (rec : TrustedKeyRecord) :
    KeyRing :=
  { r with
      nodes := r.nodes ++ [rec.Owner]
      prob := fun m => if m = rec.Owner then 1 else r.prob m
      edges := fun a b =>
        if a = owner ∧ b = rec.Owner then some rec.KeyPub else r.edges a b
      table := fun m =>
        if m = rec.Owner then some ⟨rec.Owner, rec.KeyPub, rec.Confidence⟩
        else r.table m }

/-- Go `NewKeyRing` creates a key ring: the root node with probability 1.0 and
its record with confidence 1.0, plus one node, one root edge and one table
record per bootstrap trusted record.  (The bootstrap `keyTable.add` calls
are modelled from the spec: insert or replace.) -/
def NewKeyRing (owner : String) (key : PublicKey)
    (trustedRecords : List TrustedKeyRecord) (threshold : ℚ) : KeyRing :=
  let base : KeyRing :=
    { source := owner
      nodes := [owner]
      prob := fun m => if m = owner then 1 else 0
      edges := fun _ _ => none
      table := fun m => if m = owner then some ⟨owner, key, 1⟩ else none
      pending := []
      threshold := threshold
      stopped := false }
  trustedRecords.foldl (bootstrapStep owner) base

/-- Go `GetKey` returns the key of the peer with given name; the absent cases
return the zero value key and `false`.  Present requires both a record and
confidence at least the threshold. -/
def KeyRing.GetKey (ring : KeyRing) (name : String) : PublicKey × Bool :=
  match ring.table name with
  | none => (zeroKey, false)
  | some rec =>
      if rec.Confidence < ring.threshold then (zeroKey, false)
      else (rec.KeyPub, true)

/-- Go `GetRecord` returns the record regardless of the threshold. -/
def KeyRing.GetRecord (ring : KeyRing) (name : String) :
    Option TrustedKeyRecord :=
  ring.table name

/-- Go `Stop` sets the stopped flag; nothing else. -/
def KeyRing.Stop (ring : KeyRing) : KeyRing :=
  { ring with stopped := true }

/-- Go `AddUnverified` enqueues a message on the pending queue. -/
def KeyRing.AddUnverified (ring : KeyRing) (msg : KeyExchangeMessage) : KeyRing :=
  { ring with pending := ring.pending ++ [msg] }

/-! ## Shortest paths

The source delegates shortest-path computation to gonum
(`path.DijkstraAllPaths` / `AllBetween`, `path.DijkstraFrom` / `WeightTo`)
over `simple.DirectedGraph`, which has unit edge weights.  With unit
weights every minimum-weight path is a simple path, so the set of all
shortest `s → t` paths is exactly the set of minimum-length simple paths;
`AllBetween(u, u)` returns the single trivial path `[u]` (weight 0) and
returns no path when `t` is unreachable.  The embedding enumerates simple
paths with a fuel argument bounded by the number of nodes. -/

/-- Successors of `u` in the graph: nodes `v` with an edge `u → v`. -/
def outNeighbors (adj : String → String → Option PublicKey)
    (nodesL : List String) (u : String) : List String :=
  nodesL.filter (fun v => (adj u v).isSome)

/-- All simple paths from `cur` to `t` avoiding `visited`, as node-name
sequences including both endpoints.  A path stops at its first visit of
`t` (shortest paths never pass through their terminal). -/
def pathsTo (adj : String → String → Option PublicKey) (nodesL : List String)
    (t : String) : Nat → String → List String → List (List String)
  | 0, _, _ => []
  | fuel + 1, cur, visited =>
      if cur = t then [[t]]
      else
        ((outNeighbors adj nodesL cur).filter
            (fun v => ¬ visited.contains v)).flatMap
          (fun v => (pathsTo adj nodesL t fuel v (v :: visited)).map
            (fun p => cur :: p))

/-- All shortest paths from `s` to `t`, mirroring
`path.DijkstraAllPaths(…).AllBetween(s, t)`: minimum-length simple paths,
`[[s]]` for `s = t`, `[]` when unreachable. -/
def allShortestPaths (adj : String → String → Option PublicKey)
    (nodesL : List String) (s t : String) : List (List String) :=
  let ps := pathsTo adj nodesL t (nodesL.length + 1) s [s]
  match (ps.map List.length).min? with
  | none => []
  | some m => ps.filter (fun p => p.length = m)

/-- Hop distance from `s` to `t`, mirroring `DijkstraFrom(s, g).WeightTo(t)`
with unit weights: `none` models `+Inf` (unreachable). -/
def distOf (adj : String → String → Option PublicKey) (nodesL : List String)
    (s t : String) : Option Nat :=
  ((allShortestPaths adj nodesL s t).head?).map (fun p => p.length - 1)

/-- Go `phi` computes the probability (trust) of a node:
`min(1/dist, reputation)` with a distance of 0 treated as 1; a
non-existent node has probability 0.  `1.0 / +Inf` is `0` in Go, so the
unreachable case yields `min 0 reputation`. -/
def KeyRing.phi (ring : KeyRing) (name : String) (reputation : ℚ) : ℚ :=
  if ¬ ring.nodes.contains name then 0
  else
    match distOf ring.edges ring.nodes ring.source name with
    | none => min 0 reputation
    | some d => min (1 / (if d = 0 then (1 : ℚ) else (d : ℚ))) reputation

/-- The key asserted by the final edge of a path (the source calls
`log.Fatal` if the edge disappeared; on paths produced by
`allShortestPaths` the edge always exists).  Paths of length `< 2` have no
final edge (`continue` / `return paths, nil` in the source). -/
def lastEdgeKey (adj : String → String → Option PublicKey)
    (p : List String) : Option PublicKey :=
  match p.reverse with
  | t :: s :: _ => adj s t
  | _ => none

/-- Go `selectBestPaths` keeps the biggest subset of paths whose final edge
asserts the same key and returns that key.  With two or more paths the
source tallies occurrences in a Go map and scans it with `occ > max`;
the map iteration order is nondeterministic, so it is taken here as the
explicit parameter `order` (the sequence in which the distinct keys are
visited).  A key missing from `order` can never be selected; when no key
is selected the source's zero-valued `bkey` matches no path and the
zero-value `rsa.PublicKey` is returned. -/
def KeyRing.selectBestPaths (ring : KeyRing) (paths : List (List String))
    (order : List PublicKey) : List (List String) × Option PublicKey :=
  match paths with
  | [] => ([], none)
  | [p] => ([p], lastEdgeKey ring.edges p)
  | ps =>
      let count : PublicKey → Nat := fun k =>
        (ps.filter (fun p => lastEdgeKey ring.edges p = some k)).length
      let best : Nat × Option PublicKey :=
        order.foldl
          (fun acc k => if count k > acc.1 then (count k, some k) else acc)
          (0, none)
      match best.2 with
      | none => ([], some zeroKey)
      | some bk => (ps.filter (fun p => lastEdgeKey ring.edges p = some bk), some bk)

/-- Modelled from the spec: `probabilityOfMinPaths`.  Each path has
probability the product of the trust probabilities of its internal nodes
(excluding the terminal; the root contributes 1.0), and the result is
`1 − ∏ (1 − probability(p))` over the given paths. -/
def pathProbability (prob : String → ℚ) (p : List String) : ℚ :=
  ((p.dropLast).drop 1).foldl (fun acc n => acc * prob n) 1

/-- Modelled from the spec: see `pathProbability`. -/
def probabilityOfMinPaths (prob : String → ℚ) (paths : List (List String)) : ℚ :=
  1 - paths.foldl (fun acc p => acc * (1 - pathProbability prob p)) 1

/-- Modelled from the spec: `keyTable.updateConfidence(name, conf, key)` on
one record.  A missing record is left untouched (no-op); with a `nil`
chosen key the confidence is forced to 0 and the key is left; otherwise
the stored key and confidence are replaced. -/
def commitRecord (val : ℚ × Option PublicKey) :
    Option TrustedKeyRecord → Option TrustedKeyRecord
  | none => none
  | some rec =>
      match val.2 with
      | none => some { rec with Confidence := 0 }
      | some k => some { rec with KeyPub := k, Confidence := val.1 }

/-- The (confidence, best key) pair computed for one terminal inside
`updateConfidence`: all shortest paths from the root, best-path selection,
disjunction probability. -/
def KeyRing.targetVal (ring : KeyRing) (order : String → List PublicKey)
    (name : String) : ℚ × Option PublicKey :=
  let minpaths := allShortestPaths ring.edges ring.nodes ring.source name
  let sel := ring.selectBestPaths minpaths (order name)
  (probabilityOfMinPaths ring.prob sel.1, sel.2)

/-- Go `updateConfidence` recomputes the confidence of every known identity
and commits it into the key table.  The graph is only read; the paths are
computed from the graph as it stands at the call. -/
def KeyRing.updateConfidence (ring : KeyRing) (order : String → List PublicKey) :
    KeyRing :=
  { ring with
      table := ring.nodes.foldl
        (fun t name => fun m =>
          if m = name then commitRecord (ring.targetVal order name) (t m)
          else t m)
        ring.table }

/-- The reputation used for a name: the oracle's value when the oracle is
given and has an entry, the neutral prior 0.5 otherwise. -/
def repOr (reptable : Option RepTable) (name : String) : ℚ :=
  match reptable with
  | none => 1 / 2
  | some f =>
      match f name with
      | some r => r
      | none => 1 / 2

/-- Go `updateTrust` recomputes the trust of each node:
`addNode(name, phi(name, 2·rep))` for every known name. -/
def KeyRing.updateTrust (ring : KeyRing) (reptable : Option RepTable) : KeyRing :=
  ring.nodes.foldl
    (fun r name => r.addNode name (r.phi name (2 * repOr reptable name)))
    ring

/-- Go `Add` updates the ring with a verified record signed by `sigOrigin`:
unknown signers and self-signed records are ignored; otherwise the owner
node is ensured (probability 0), the edge inserted, the owner probability
recomputed via `phi`, and the confidences recomputed.  (On `addEdge`
failure the source aborts with `log.Fatal`; that branch is unreachable
because the preconditions were just established.) -/
def KeyRing.Add (ring : KeyRing) (rec : KeyRecord) (sigOrigin : String)
    (reputationOwner : ℚ) (order : String → List PublicKey) : KeyRing :=
  if ¬ ring.contains sigOrigin then ring
  else if rec.Owner = sigOrigin then ring
  else
    let r1 := ring.addNode rec.Owner 0
    let r2 := match r1.addEdge sigOrigin rec.Owner rec.KeyPub with
      | some r => r
      | none => r1
    let probability := r2.phi rec.Owner reputationOwner
    let r3 := r2.addNode rec.Owner probability
    r3.updateConfidence order

/-- Go `updateMessage` tries to apply one pending message: a key that fails
deserialization counts as decisively processed (`true`); a signer whose
key is unavailable leaves the message pending (`false`); otherwise the
signature is verified and on success the record is added. -/
def KeyRing.updateMessage (ring : KeyRing) (crypto : Crypto)
    (msg : KeyExchangeMessage) (confidenceOwner : ℚ)
    (order : String → List PublicKey) : KeyRing × Bool :=
  match crypto.DeserializeKey msg.KeyBytes with
  | none => (ring, true)
  | some receivedKey =>
      let record : KeyRecord := ⟨msg.Owner, receivedKey⟩
      let res := ring.GetKey msg.Origin
      if res.2 = false then (ring, false)
      else if crypto.Verify msg res.1 then
        (ring.Add record msg.Origin confidenceOwner order, true)
      else (ring, false)

/-- The processing pass of `updatePending`: fold `updateMessage` over the
queued messages with the doubled owner reputation, collecting the
"mark for removal" flags (the `toRemove` list of the source). -/
def KeyRing.updatePendingAux (ring : KeyRing) (crypto : Crypto)
    (reptable : Option RepTable) (order : String → List PublicKey)
    (msgs : List KeyExchangeMessage) : KeyRing × List Bool :=
  msgs.foldl
    (fun acc msg =>
      let res := acc.1.updateMessage crypto msg (2 * repOr reptable msg.Owner) order
      (res.1, acc.2 ++ [res.2]))
    (ring, [])

/-- Go `updatePending` processes the queued messages and then runs the
source's removal loop.  That loop calls `ring.pending.Remove(e)` on the
front element; Go's `container/list.Remove` nils the element's `next`
link, so `e.Next()` is `nil` and the loop exits after removing exactly the
first element — the `toRemove` marks are never consulted. -/
def KeyRing.updatePending (ring : KeyRing) (crypto : Crypto)
    (reptable : Option RepTable) (order : String → List PublicKey) : KeyRing :=
  let r := (ring.updatePendingAux crypto reptable order ring.pending).1
  { r with pending := r.pending.drop 1 }

/-! ## Concrete scenario states

Small concrete rings used to evaluate the claims: the spec's bootstrap
scenario S1 (root `R`, bootstrap record `{B, K_B, 0.9}`, threshold 0.5)
and a conflicting-attestation state with two equally short paths. -/

/-- Concrete key of the root `R`. -/
def kR : PublicKey := ⟨2, 3⟩

/-- Concrete key of the bootstrap peer `B`. -/
def kB : PublicKey := ⟨3, 3⟩

/-- Concrete key attested for `C`. -/
def kC : PublicKey := ⟨5, 3⟩

/-- Concrete key of the bootstrap peer `D`. -/
def kD : PublicKey := ⟨7, 3⟩

/-- First conflicting key for `C`. -/
def k1 : PublicKey := ⟨11, 3⟩

/-- Second conflicting key for `C`. -/
def k2 : PublicKey := ⟨13, 3⟩

/-- A fixed (empty) map-iteration order; only consulted when a target has
two or more shortest paths. -/
def ord0 : String → List PublicKey := fun _ => []

/-- Scenario S1: ring with root `R` (key `kR`), bootstrap record
`{B, kB, 0.9}` and threshold 0.5. -/
def ring1 : KeyRing := NewKeyRing "R" kR [⟨"B", kB, 9/10⟩] (1/2)

/-- Scenario S2: S1 followed by `Add({owner: C, key: kC}, signer: B, 0.5)`. -/
def ringS2 : KeyRing := ring1.Add ⟨"C", kC⟩ "B" (1/2) ord0

/-- A pending attestation about `Y` signed by the unknown peer `X`. -/
def msgXY : KeyExchangeMessage := ⟨[1], "Y", "X"⟩

/-- S1 with `msgXY` enqueued via `AddUnverified`. -/
def ring4 : KeyRing := ring1.AddUnverified msgXY

/-- Crypto collaborator whose deserialization always succeeds and whose
verification always accepts. -/
def cryptoOk : Crypto := ⟨fun _ => some ⟨17, 3⟩, fun _ _ => true⟩

/-- Crypto collaborator whose deserialization always fails. -/
def cryptoFail : Crypto := ⟨fun _ => none, fun _ _ => true⟩

/-- A frozen ring with two equally short root-to-`C` paths whose final
edges assert different keys (`k1` via `B` with probability 0.9, `k2` via
`D` with probability 0.4), and an existing table record for `C`. -/
def ringT : KeyRing :=
  { source := "R"
    nodes := ["R", "B", "D", "C"]
    prob := fun m =>
      if m = "B" then 9/10 else if m = "D" then 2/5 else if m = "R" then 1 else 0
    edges := fun a b =>
      if a = "R" ∧ b = "B" then some kB
      else if a = "R" ∧ b = "D" then some kD
      else if a = "B" ∧ b = "C" then some k1
      else if a = "D" ∧ b = "C" then some k2
      else none
    table := fun m => if m = "C" then some ⟨"C", k1, 0⟩ else none
    pending := []
    threshold := 1/2
    stopped := false }

/-- Map-iteration order visiting `k1` first. -/
def o1 : String → List PublicKey := fun _ => [k1, k2]

/-- Map-iteration order visiting `k2` first. -/
def o2 : String → List PublicKey := fun _ => [k2, k1]

/-! ## Frame and unfolding lemmas -/

@[simp]
theorem addNode_edges (ring : KeyRing) (name : String) (p : ℚ) :
    (ring.addNode name p).edges = ring.edges := by
  unfold KeyRing.addNode; split <;> rfl

@[simp]
theorem addNode_table (ring : KeyRing) (name : String) (p : ℚ) :
    (ring.addNode name p).table = ring.table := by
  unfold KeyRing.addNode; split <;> rfl

@[simp]
theorem addNode_source (ring : KeyRing) (name : String) (p : ℚ) :
    (ring.addNode name p).source = ring.source := by
  unfold KeyRing.addNode; split <;> rfl

@[simp]
theorem addNode_prob (ring : KeyRing) (name : String) (p : ℚ) :
    (ring.addNode name p).prob = fun m => if m = name then p else ring.prob m := by
  unfold KeyRing.addNode; split <;> rfl

theorem addNode_nodes_of_contains (ring : KeyRing) (name : String) (p : ℚ)
    (h : ring.nodes.contains name = true) :
    (ring.addNode name p).nodes = ring.nodes := by
  have hm : name ∈ ring.nodes := by simpa using h
  unfold KeyRing.addNode; simp [hm]

theorem addNode_contains_mono (ring : KeyRing) (name m : String) (p : ℚ)
    (h : ring.nodes.contains m = true) :
    (ring.addNode name p).nodes.contains m = true := by
  have hm : m ∈ ring.nodes := by simpa using h
  unfold KeyRing.addNode; split
  · exact h
  · simp [hm]

theorem addNode_contains_self (ring : KeyRing) (name : String) (p : ℚ) :
    (ring.addNode name p).nodes.contains name = true := by
  unfold KeyRing.addNode; split
  · assumption
  · simp

theorem addEdge_eq_some (ring : KeyRing) (a b : String) (key : PublicKey)
    (ha : ring.nodes.contains a = true) (hb : ring.nodes.contains b = true)
    (hne : a ≠ b) :
    ring.addEdge a b key = some { ring with
      edges := fun x y => if x = a ∧ y = b then some key else ring.edges x y } := by
  have ha' : a ∈ ring.nodes := by simpa using ha
  have hb' : b ∈ ring.nodes := by simpa using hb
  unfold KeyRing.addEdge
  simp [ha', hb', hne]

/-- Committing a fixed value with `commitRecord` is idempotent on records. -/
theorem commitRecord_idem (val : ℚ × Option PublicKey)
    (x : Option TrustedKeyRecord) :
    commitRecord val (commitRecord val x) = commitRecord val x := by
  cases x with
  | none => rfl
  | some rec =>
      unfold commitRecord
      cases val.2 <;> rfl

theorem commitRecord_isSome (val : ℚ × Option PublicKey)
    (x : Option TrustedKeyRecord) :
    (commitRecord val x).isSome = x.isSome := by
  cases x with
  | none => rfl
  | some rec =>
      unfold commitRecord
      cases val.2 <;> rfl

/-- The key-table fold of `updateConfidence`, read at one name: the names
in the list are committed (repeated commits collapse by idempotence),
others are untouched. -/
theorem foldl_commit_lookup (ring : KeyRing) (order : String → List PublicKey)
    (l : List String) (t : String → Option TrustedKeyRecord) (m : String) :
    (l.foldl
        (fun t name => fun x =>
          if x = name then commitRecord (ring.targetVal order name) (t x)
          else t x) t) m
      = if m ∈ l then commitRecord (ring.targetVal order m) (t m) else t m := by
  induction l generalizing t with
  | nil => simp
  | cons n l ih =>
      simp only [List.foldl_cons, ih, List.mem_cons]
      by_cases hml : m ∈ l
      · by_cases hmn : m = n
        · subst hmn
          simp [hml, commitRecord_idem]
        · simp [hml, hmn]
      · by_cases hmn : m = n
        · subst hmn
          simp [hml]
        · simp [hml, hmn]

theorem updateConfidence_table (ring : KeyRing)
    (order : String → List PublicKey) (m : String) :
    (ring.updateConfidence order).table m
      = if m ∈ ring.nodes then commitRecord (ring.targetVal order m) (ring.table m)
        else ring.table m := by
  unfold KeyRing.updateConfidence
  exact foldl_commit_lookup ring order ring.nodes ring.table m

@[simp]
theorem updateConfidence_edges (ring : KeyRing) (order : String → List PublicKey) :
    (ring.updateConfidence order).edges = ring.edges := rfl

@[simp]
theorem updateConfidence_nodes (ring : KeyRing) (order : String → List PublicKey) :
    (ring.updateConfidence order).nodes = ring.nodes := rfl

@[simp]
theorem updateConfidence_prob (ring : KeyRing) (order : String → List PublicKey) :
    (ring.updateConfidence order).prob = ring.prob := rfl

@[simp]
theorem updateConfidence_source (ring : KeyRing) (order : String → List PublicKey) :
    (ring.updateConfidence order).source = ring.source := rfl

theorem updateConfidence_targetVal (ring : KeyRing)
    (order order' : String → List PublicKey) (name : String) :
    (ring.updateConfidence order).targetVal order' name
      = ring.targetVal order' name := rfl

/-- Function `phi` reads only the node list, the edges and the source. -/
theorem phi_congr (r₁ r₂ : KeyRing) (hn : r₁.nodes = r₂.nodes)
    (he : r₁.edges = r₂.edges) (hs : r₁.source = r₂.source)
    (name : String) (rep : ℚ) :
    r₁.phi name rep = r₂.phi name rep := by
  unfold KeyRing.phi
  rw [hn, he, hs]

/-- The only shortest path from a node to itself is the trivial one
(`AllBetween(u, u)` returns `[[u]]` in gonum). -/
theorem allShortestPaths_self (adj : String → String → Option PublicKey)
    (nodesL : List String) (s : String) :
    allShortestPaths adj nodesL s s = [[s]] := by
  unfold allShortestPaths pathsTo
  simp

/-- The per-target value computed for the root: the trivial path has no
final edge, so no key is chosen. -/
theorem targetVal_source (ring : KeyRing) (order : String → List PublicKey) :
    ring.targetVal order ring.source
      = (probabilityOfMinPaths ring.prob [[ring.source]], none) := by
  unfold KeyRing.targetVal
  rw [allShortestPaths_self]
  rfl

/-- The trust-update fold leaves the key table untouched. -/
theorem updateTrust_foldl_table (reptable : Option RepTable)
    (l : List String) (r : KeyRing) :
    (l.foldl
        (fun r name => r.addNode name (r.phi name (2 * repOr reptable name)))
        r).table
      = r.table := by
  induction l generalizing r with
  | nil => rfl
  | cons n l ih => rw [List.foldl_cons, ih, addNode_table]

theorem updateTrust_table (ring : KeyRing) (reptable : Option RepTable) :
    (ring.updateTrust reptable).table = ring.table := by
  unfold KeyRing.updateTrust
  exact updateTrust_foldl_table reptable ring.nodes ring

/-- The trust-update fold: graph structure is preserved and every name in
the folded list ends with probability `phi` of the original graph. -/
theorem updateTrust_foldl_prob (reptable : Option RepTable) (ring : KeyRing) :
    ∀ (l : List String) (r : KeyRing),
      r.nodes = ring.nodes → r.edges = ring.edges → r.source = ring.source →
      (∀ n ∈ l, n ∈ ring.nodes) →
      (l.foldl
          (fun r name => r.addNode name (r.phi name (2 * repOr reptable name)))
          r).nodes = ring.nodes
      ∧ ∀ m, (l.foldl
          (fun r name => r.addNode name (r.phi name (2 * repOr reptable name)))
          r).prob m
        = if m ∈ l then ring.phi m (2 * repOr reptable m) else r.prob m := by
  intro l
  induction l with
  | nil =>
      intro r hn _ _ _
      exact ⟨hn, fun m => by simp⟩
  | cons n l ih =>
      intro r hn he hs hmem
      have hnr : r.nodes.contains n = true := by
        have : n ∈ ring.nodes := hmem n (List.mem_cons_self n l)
        rw [hn]
        simpa using this
      set r' := r.addNode n (r.phi n (2 * repOr reptable n)) with hr'
      have hn' : r'.nodes = ring.nodes := by
        rw [hr', addNode_nodes_of_contains r n _ hnr, hn]
      have he' : r'.edges = ring.edges := by rw [hr', addNode_edges, he]
      have hs' : r'.source = ring.source := by rw [hr', addNode_source, hs]
      have hmem' : ∀ x ∈ l, x ∈ ring.nodes :=
        fun x hx => hmem x (List.mem_cons_of_mem n hx)
      obtain ⟨ihn, ihp⟩ := ih r' hn' he' hs' hmem'
      refine ⟨by rw [List.foldl_cons]; exact ihn, ?_⟩
      intro m
      rw [List.foldl_cons]
      rw [ihp m]
      have hphi : r.phi n (2 * repOr reptable n) = ring.phi n (2 * repOr reptable n) :=
        phi_congr r ring hn he hs n _
      have hprob : r'.prob m
          = if m = n then ring.phi n (2 * repOr reptable n) else r.prob m := by
        rw [hr', addNode_prob, ← hphi]
      by_cases hml : m ∈ l
      · simp [hml]
      · by_cases hmn : m = n
        · subst hmn
          simp [hml, hprob]
        · simp [hml, hmn, hprob]

/-- The bootstrap fold never changes the root's table record when no
bootstrap owner collides with the root. -/
theorem bootstrap_foldl_table (owner : String) (l : List TrustedKeyRecord) :
    ∀ (r : KeyRing), (∀ rec ∈ l, rec.Owner ≠ owner) →
      (l.foldl (bootstrapStep owner) r).table owner = r.table owner := by
  induction l with
  | nil => intro r _; rfl
  | cons rec l ih =>
      intro r h
      rw [List.foldl_cons]
      rw [ih _ (fun x hx => h x (List.mem_cons_of_mem rec hx))]
      show (if owner = rec.Owner then some ⟨rec.Owner, rec.KeyPub, rec.Confidence⟩
        else r.table owner) = r.table owner
      exact if_neg (fun e => (h rec (List.mem_cons_self rec l)) e.symm)

theorem NewKeyRing_root_record (owner : String) (key : PublicKey)
    (recs : List TrustedKeyRecord) (threshold : ℚ)
    (h : ∀ r ∈ recs, r.Owner ≠ owner) :
    (NewKeyRing owner key recs threshold).table owner = some ⟨owner, key, 1⟩ := by
  unfold NewKeyRing
  rw [bootstrap_foldl_table owner recs _ h]
  simp

/-! ### `Stop` commutation lemmas -/

theorem stop_contains (ring : KeyRing) (s : String) :
    ring.Stop.contains s = ring.contains s := rfl

theorem stop_addNode (ring : KeyRing) (n : String) (p : ℚ) :
    ring.Stop.addNode n p = (ring.addNode n p).Stop := by
  unfold KeyRing.addNode KeyRing.Stop
  dsimp only
  split <;> rfl

theorem stop_addEdge (ring : KeyRing) (a b : String) (key : PublicKey) :
    ring.Stop.addEdge a b key = (ring.addEdge a b key).map KeyRing.Stop := by
  unfold KeyRing.addEdge KeyRing.Stop
  dsimp only
  split
  · rfl
  · split
    · rfl
    · split <;> rfl

theorem stop_phi (ring : KeyRing) (n : String) (rep : ℚ) :
    ring.Stop.phi n rep = ring.phi n rep :=
  phi_congr ring.Stop ring rfl rfl rfl n rep

theorem stop_updateConfidence (ring : KeyRing) (order : String → List PublicKey) :
    ring.Stop.updateConfidence order = (ring.updateConfidence order).Stop := rfl

/-! ## Claim theorems

`Rat.add` and friends carry `@[irreducible]` in the library; the concrete
evaluations below re-enable their reduction so that `decide` can evaluate
the embedded code on concrete inputs within the kernel. -/

set_option allowUnsafeReducibility true

attribute [local semireducible] Rat.add Rat.sub Rat.mul Rat.inv Rat.div

/-- C1. For every name, `GetKey(name)` reports present if and only if a
record for that name exists in the key table and its confidence is at
least the ring's threshold; when present it returns the stored public key
of that record. -/
theorem GetKey_present_iff (ring : KeyRing) (name : String) :
    ((ring.GetKey name).2 = true ↔
      ∃ rec, ring.table name = some rec ∧ ring.threshold ≤ rec.Confidence)
    ∧ (∀ rec, ring.table name = some rec → ring.threshold ≤ rec.Confidence →
        (ring.GetKey name).1 = rec.KeyPub) := by
  constructor
  · unfold KeyRing.GetKey
    cases h : ring.table name with
    | none => simp
    | some rec =>
        by_cases hc : rec.Confidence < ring.threshold
        · simp only [hc, if_true, if_pos, Bool.false_eq_true, false_iff]
          rintro ⟨rec', hrec', hthr⟩
          rw [Option.some.injEq] at hrec'
          subst hrec'
          exact absurd hthr (not_le.mpr hc)
        · simp only [hc, if_false, if_neg, not_false_iff]
          constructor
          · intro _
            exact ⟨rec, rfl, not_lt.mp hc⟩
          · intro _
            trivial
  · intro rec hrec hthr
    unfold KeyRing.GetKey
    rw [hrec]
    simp [not_lt.mpr hthr]

/-- C1 witness: on the S1 ring, `B`'s record (confidence 0.9 ≥ 0.5) is
present with key `kB`. -/
theorem GetKey_present_iff_witness :
    (ring1.GetKey "B").2 = true ∧ (ring1.GetKey "B").1 = kB := by
  constructor
  · exact (GetKey_present_iff ring1 "B").1.mpr
      ⟨⟨"B", kB, 9/10⟩, by decide, by decide⟩
  · exact (GetKey_present_iff ring1 "B").2 ⟨"B", kB, 9/10⟩ (by decide) (by decide)

/-- C2 counterexample: a self-signed `Add` on the S1 ring.  The signer `R`
is known, yet no edge `(R, R)` is created, so neither disjunct of the
claim holds at this input. -/
theorem Add_selfSigned_counterexample :
    ¬ ((¬ ring1.contains "R" = true ∧ ring1.Add ⟨"R", kC⟩ "R" (1/2) ord0 = ring1)
      ∨ ((ring1.Add ⟨"R", kC⟩ "R" (1/2) ord0).edges "R" "R" = some kC
          ∧ ((ring1.Add ⟨"R", kC⟩ "R" (1/2) ord0).table "R").isSome = true)) := by
  rintro (⟨h, _⟩ | ⟨h, _⟩)
  · exact h (by decide)
  · have : (ring1.Add ⟨"R", kC⟩ "R" (1/2) ord0).edges "R" "R" = none := by decide
    rw [this] at h
    cases h

/-- C2 amended: after `Add(r, s, _)` either the signer is unknown or the
record is self-signed and the ring is unchanged, or the graph contains the
edge `(s, r.owner)` carrying `r.publicKey`, and `r.owner` has a record in
the key table whenever it already had one (a fresh owner is not inserted:
the insertion in `Add` is commented out in the source and the confidence
commit skips unknown names). -/
theorem Add_effect (ring : KeyRing) (rec : KeyRecord) (sigOrigin : String)
    (reputationOwner : ℚ) (order : String → List PublicKey) :
    ((ring.contains sigOrigin = false ∨ rec.Owner = sigOrigin)
        ∧ ring.Add rec sigOrigin reputationOwner order = ring)
    ∨ ((ring.Add rec sigOrigin reputationOwner order).edges sigOrigin rec.Owner
          = some rec.KeyPub
        ∧ ((ring.table rec.Owner).isSome = true →
            ((ring.Add rec sigOrigin reputationOwner order).table rec.Owner).isSome
              = true)) := by
  by_cases hc : ring.contains sigOrigin = true
  · by_cases ho : rec.Owner = sigOrigin
    · left
      constructor
      · exact Or.inr ho
      · unfold KeyRing.Add
        simp [hc, ho]
    · right
      have hc1 : (ring.addNode rec.Owner 0).nodes.contains sigOrigin = true :=
        addNode_contains_mono ring rec.Owner sigOrigin 0 hc
      have ho1 : (ring.addNode rec.Owner 0).nodes.contains rec.Owner = true :=
        addNode_contains_self ring rec.Owner 0
      have hedge := addEdge_eq_some (ring.addNode rec.Owner 0) sigOrigin rec.Owner
        rec.KeyPub hc1 ho1 (fun h => ho h.symm)
      have hadd : ring.Add rec sigOrigin reputationOwner order
          = ((((ring.addNode rec.Owner 0).addEdge sigOrigin rec.Owner
                rec.KeyPub).getD (ring.addNode rec.Owner 0)).addNode rec.Owner
              ((((ring.addNode rec.Owner 0).addEdge sigOrigin rec.Owner
                  rec.KeyPub).getD (ring.addNode rec.Owner 0)).phi rec.Owner
                reputationOwner)).updateConfidence order := by
        unfold KeyRing.Add
        simp only [hc, ho]
        rw [hedge]
        simp [KeyRing.contains, hc, ho]
      constructor
      · rw [hadd]
        rw [updateConfidence_edges, addNode_edges, hedge]
        simp
      · intro hsome
        rw [hadd]
        rw [updateConfidence_table]
        rw [addNode_table]
        rw [hedge]
        simp only [Option.getD_some]
        split
        · rw [commitRecord_isSome]
          simpa using hsome
        · simpa using hsome
  · left
    constructor
    · exact Or.inl (by simpa using hc)
    · unfold KeyRing.Add
      simp [hc]

/-- C2 witness (for the amended claim): applying the theorem to the S2
`Add` shows the edge `(B, C)` carrying `kC` exists afterwards. -/
theorem Add_effect_witness :
    (ring1.Add ⟨"C", kC⟩ "B" (1/2) ord0).edges "B" "C" = some kC := by
  rcases Add_effect ring1 ⟨"C", kC⟩ "B" (1/2) ord0 with ⟨h1, _⟩ | ⟨h2, _⟩
  · rcases h1 with h | h
    · exact absurd h (by decide)
    · exact absurd h (by decide)
  · exact h2

/-- C3 counterexample: on the S1 ring, after
`Add({owner: C, key: kC}, signer: B, 0.5)` the lookup `GetKey(C)` reports
absent (zero key, `false`), not `(kC, true)` as claimed, because `C` never
received a key-table record (the insertion in `Add` is commented out and
the confidence commit is a no-op for unknown names). -/
theorem twoHop_GetKey_absent :
    ringS2.GetKey "C" = (zeroKey, false)
    ∧ ¬ ringS2.GetKey "C" = (kC, true) := by
  constructor <;> decide

/-- C3 amended: after the two-hop `Add` the graph contains the single
shortest path `R → B → C`, the confidence computed for `C` is 1.0, but `C`
has no record in the key table, so `GetKey(C)` reports absent. -/
theorem twoHop_amended :
    allShortestPaths ringS2.edges ringS2.nodes "R" "C" = [["R", "B", "C"]]
    ∧ (ringS2.targetVal ord0 "C").1 = 1
    ∧ ringS2.table "C" = none
    ∧ ringS2.GetKey "C" = (zeroKey, false) := by
  refine ⟨by decide, by decide, by decide, by decide⟩

/-- C4: the removal loop of `updatePending` removes exactly the front
element of the queue, not the marked ones.  On a queue holding a single
message whose signer's key is unavailable the message is not marked
(`updateMessage` returns `false`), yet the queue is empty afterwards —
the claim says it should remain pending. -/
theorem updatePending_drops_front_unmarked :
    (ring4.updatePendingAux cryptoOk none ord0 ring4.pending).2 = [false]
    ∧ (ring4.updatePending cryptoOk none ord0).pending = [] := by
  constructor <;> decide

/-- C5. `updateTrust` sets every existing node's probability to
`min(1/dist(root, N), 2·r)` (distance 0 treated as 1, `1/∞ = 0` for an
unreachable node), where `r` is the oracle's reputation or the neutral
prior 0.5; `phi` of a non-existent node is 0. -/
theorem updateTrust_phi_formula (reptable : Option RepTable) (ring : KeyRing)
    (name : String) :
    (name ∈ ring.nodes →
      (ring.updateTrust reptable).prob name
        = min
            (match distOf ring.edges ring.nodes ring.source name with
             | none => 0
             | some d => 1 / (if d = 0 then (1 : ℚ) else (d : ℚ)))
            (2 * repOr reptable name))
    ∧ (name ∉ ring.nodes → ∀ rep : ℚ, ring.phi name rep = 0) := by
  constructor
  · intro h
    unfold KeyRing.updateTrust
    obtain ⟨_, hp⟩ := updateTrust_foldl_prob reptable ring ring.nodes ring
      rfl rfl rfl (fun _ hn => hn)
    rw [hp name, if_pos h]
    unfold KeyRing.phi
    have hc : ring.nodes.contains name = true := by simpa using h
    rw [if_neg (not_not_intro hc)]
    cases hD : distOf ring.edges ring.nodes ring.source name with
    | none => simp [min_comm]
    | some d => rfl
  · intro h rep
    unfold KeyRing.phi
    rw [if_pos (by simpa using h)]

/-- C5 witness: on the S1 ring `B` is one hop from the root and the null
oracle yields the prior 0.5, so its probability becomes
`min(1/1, 2·0.5) = 1`; the non-existent `Z` has `phi = 0`. -/
theorem updateTrust_phi_formula_witness :
    (ring1.updateTrust none).prob "B" = 1 ∧ ring1.phi "Z" 5 = 0 := by
  constructor
  · have h := (updateTrust_phi_formula none ring1 "B").1 (by decide)
    rw [h]
    decide
  · exact (updateTrust_phi_formula none ring1 "Z").2 (by decide) 5

/-- C6: with two equally short paths endorsing different keys, the chosen
key follows the iteration order of the Go occurrence map (`occ > max`
keeps the first maximal key in map order), which is nondeterministic
between runs: visiting `k1` first selects `k1`, visiting `k2` first
selects `k2`, on the same frozen graph. -/
theorem selectBestPaths_tie_depends_on_order :
    ringT.selectBestPaths (allShortestPaths ringT.edges ringT.nodes "R" "C")
        [k1, k2] = ([["R", "B", "C"]], some k1)
    ∧ ringT.selectBestPaths (allShortestPaths ringT.edges ringT.nodes "R" "C")
        [k2, k1] = ([["R", "D", "C"]], some k2) := by
  constructor <;> decide

/-- C7 counterexample: one `updateConfidence` on the S1 ring resets the
root record's confidence to 0 (the root's only shortest path is trivial,
yields no chosen key, and the nil-key commit forces confidence 0), so the
root's confidence is not 1.0 at all times. -/
theorem root_confidence_zero_after_update :
    Option.map TrustedKeyRecord.Confidence ((ring1.updateConfidence ord0).table "R")
      = some 0 := by
  decide

/-- C7 amended: the root's record has confidence exactly 1.0 after
construction (when no bootstrap owner collides with the root), and
`AddUnverified`, `Stop` and `updateTrust` preserve the whole key table;
but every `updateConfidence` (hence every successful `Add` and every
updater tick) commits the root with no chosen key and forces its
confidence to 0. -/
theorem root_confidence_amended :
    (∀ (owner : String) (key : PublicKey) (recs : List TrustedKeyRecord)
        (thr : ℚ), (∀ r ∈ recs, r.Owner ≠ owner) →
        (NewKeyRing owner key recs thr).table owner = some ⟨owner, key, 1⟩)
    ∧ (∀ (ring : KeyRing) (msg : KeyExchangeMessage),
        (ring.AddUnverified msg).table = ring.table)
    ∧ (∀ ring : KeyRing, ring.Stop.table = ring.table)
    ∧ (∀ (ring : KeyRing) (rt : Option RepTable),
        (ring.updateTrust rt).table = ring.table)
    ∧ (∀ (ring : KeyRing) (order : String → List PublicKey)
        (rec : TrustedKeyRecord),
        ring.source ∈ ring.nodes → ring.table ring.source = some rec →
        (ring.updateConfidence order).table ring.source
          = some { rec with Confidence := 0 }) := by
  refine ⟨NewKeyRing_root_record, fun _ _ => rfl, fun _ => rfl,
    updateTrust_table, ?_⟩
  intro ring order rec hs hrec
  rw [updateConfidence_table, if_pos hs, targetVal_source, hrec]
  rfl

/-- C7 witness: the amended facts at the S1 ring. -/
theorem root_confidence_amended_witness :
    (NewKeyRing "R" kR [] (1/2)).table "R" = some ⟨"R", kR, 1⟩
    ∧ (ring1.updateConfidence ord0).table "R" = some ⟨"R", kR, 0⟩ := by
  constructor
  · exact root_confidence_amended.1 "R" kR [] (1/2) (by simp)
  · exact root_confidence_amended.2.2.2.2 ring1 ord0 ⟨"R", kR, 1⟩
      (by decide) (by decide)

/-- C8 counterexample: two consecutive `updateConfidence` runs on the same
frozen graph, realizing two different (nondeterministic) Go map iteration
orders for the tied occurrence tally, store different keys and different
confidences for `C`. -/
theorem updateConfidence_not_idempotent_across_orders :
    (ringT.updateConfidence o1).table "C" = some ⟨"C", k1, 9/10⟩
    ∧ ((ringT.updateConfidence o1).updateConfidence o2).table "C"
        = some ⟨"C", k2, 2/5⟩ := by
  constructor <;> decide

/-- C8 amended: `updateConfidence` is idempotent on a frozen graph
whenever both invocations tally the occurrence map in the same iteration
order (in particular whenever no target has tied keys): the second run
stores, for every identity, the same record as the first. -/
theorem updateConfidence_idempotent_fixed_order (ring : KeyRing)
    (order : String → List PublicKey) (name : String) :
    ((ring.updateConfidence order).updateConfidence order).table name
      = (ring.updateConfidence order).table name := by
  rw [updateConfidence_table (ring.updateConfidence order) order name]
  rw [updateConfidence_nodes, updateConfidence_targetVal]
  by_cases h : name ∈ ring.nodes
  · rw [if_pos h]
    rw [updateConfidence_table ring order name, if_pos h]
    exact commitRecord_idem _ _
  · rw [if_neg h]

/-- C9. A pending message whose key bytes fail deserialization counts as
decisively processed: `updateMessage` returns `true` and the ring is
returned unchanged, with no signature verification and no `Add`. -/
theorem updateMessage_deserialize_error (ring : KeyRing) (crypto : Crypto)
    (msg : KeyExchangeMessage) (confidenceOwner : ℚ)
    (order : String → List PublicKey)
    (h : crypto.DeserializeKey msg.KeyBytes = none) :
    ring.updateMessage crypto msg confidenceOwner order = (ring, true) := by
  unfold KeyRing.updateMessage
  rw [h]

/-- C9 witness: a crypto collaborator whose deserialization always fails. -/
theorem updateMessage_deserialize_error_witness :
    ring1.updateMessage cryptoFail msgXY 1 ord0 = (ring1, true) :=
  updateMessage_deserialize_error ring1 cryptoFail msgXY 1 ord0 rfl

/-- C10. `Stop` only sets the stopped flag — graph, key table, pending
queue and threshold are untouched — and a subsequent `Add` on a stopped
ring behaves exactly as on the running ring (the source never consults the
flag in `Add`): `Add` after `Stop` equals `Stop` after `Add`. -/
theorem Stop_only_sets_flag (ring : KeyRing) :
    ring.Stop.nodes = ring.nodes
    ∧ ring.Stop.prob = ring.prob
    ∧ ring.Stop.edges = ring.edges
    ∧ ring.Stop.table = ring.table
    ∧ ring.Stop.pending = ring.pending
    ∧ ring.Stop.threshold = ring.threshold
    ∧ ring.Stop.stopped = true
    ∧ ∀ (rec : KeyRecord) (sigOrigin : String) (rep : ℚ)
        (order : String → List PublicKey),
        ring.Stop.Add rec sigOrigin rep order
          = (ring.Add rec sigOrigin rep order).Stop := by
  refine ⟨rfl, rfl, rfl, rfl, rfl, rfl, rfl, ?_⟩
  intro rec s rep order
  unfold KeyRing.Add
  rw [stop_contains]
  by_cases hc : ring.contains s = true
  · have hc' : ¬¬ (ring.contains s = true) := not_not_intro hc
    by_cases ho : rec.Owner = s
    · rw [if_neg hc', if_neg hc', if_pos ho, if_pos ho]
    · rw [if_neg hc', if_neg hc', if_neg ho, if_neg ho]
      dsimp only
      rw [stop_addNode, stop_addEdge]
      cases hE : (ring.addNode rec.Owner 0).addEdge s rec.Owner rec.KeyPub with
      | none =>
          dsimp only [Option.map]
          rw [stop_phi, stop_addNode, stop_updateConfidence]
      | some r =>
          dsimp only [Option.map]
          rw [stop_phi, stop_addNode, stop_updateConfidence]
  · rw [if_pos hc, if_pos hc]

end Awot
